import Mathlib

/-!
Verification of the NFC payload reconstruction and URI normalization core of
the PiRecordPlayer repository.  Python strings are modelled as lists of
Unicode codepoints (`PyStr`); raw tag blocks are association lists from block
index to block string, mirroring the Python dict handed to `parse_nfc_data`.
-/

/-- A Python string: a finite sequence of Unicode codepoints. -/
abbrev PyStr := List Nat

/-- Codepoints of a Lean string literal, used to write concrete inputs. -/
def strCodes (s : String) : PyStr := s.toList.map Char.toNat

/-- Characters stripped by Python's `str.strip()` with no argument. -/
def isPySpace (c : Nat) : Bool :=
  (9 ≤ c && c ≤ 13) || (28 ≤ c && c ≤ 32) || c == 133 || c == 160 || c == 5760 ||
  (8192 ≤ c && c ≤ 8202) || c == 8232 || c == 8233 || c == 8239 || c == 8287 || c == 12288

/-- Python `s.strip()`: remove leading and trailing whitespace. -/
def pyStrip (s : PyStr) : PyStr := (s.dropWhile isPySpace).rdropWhile isPySpace

/-- Python `s.rstrip('\x00')`: remove trailing NUL codepoints. -/
def rstripNull (s : PyStr) : PyStr := s.rdropWhile (· == 0)

/-- Python `s.startswith(pre)`. -/
def pyStartsWith (s pre : PyStr) : Bool := List.isPrefixOf pre s

/-- Python `s.find(pat)` / `bytes.find`: index of the first occurrence of
`pat` in `s` (`none` for Python's `-1`). -/
def findSub (pat : PyStr) : PyStr → Option Nat
  | [] => if List.isPrefixOf pat [] then some 0 else none
  | c :: cs => if List.isPrefixOf pat (c :: cs) then some 0 else (findSub pat cs).map (· + 1)

/-- Python `pat in s` for strings/bytes. -/
def pyContains (s pat : PyStr) : Bool := (findSub pat s).isSome

theorem isPrefixOf_iff' {l₁ l₂ : PyStr} : l₁.isPrefixOf l₂ = true ↔ l₁ <+: l₂ :=
  List.isPrefixOf_iff_prefix

theorem findSub_some_add_le {pat s : PyStr} {i : Nat} (h : findSub pat s = some i) :
    i + pat.length ≤ s.length := by
  induction s generalizing i with
  | nil =>
    simp only [findSub] at h
    split at h
    · rename_i hp
      have := isPrefixOf_iff'.mp hp
      have hlen := this.length_le
      simp at hlen
      cases h
      simpa using hlen
    · exact absurd h (by simp)
  | cons c cs ih =>
    simp only [findSub] at h
    split at h
    · rename_i hp
      cases h
      have := (isPrefixOf_iff'.mp hp).length_le
      simpa using this
    · rcases Option.map_eq_some'.mp h with ⟨j, hj, rfl⟩
      have := ih hj
      simp only [List.length_cons]
      omega

/-- Helper for `splitLast`; the fuel argument only forces termination and is
always sufficient at the call site (each step removes at least one element). -/
def splitLastAux : Nat → PyStr → PyStr → PyStr
  | 0, _, s => s
  | fuel + 1, sep, s =>
    match findSub sep s with
    | none => s
    | some i => splitLastAux fuel sep (s.drop (i + sep.length))

/-- Python `s.split(sep)[-1]` for a non-empty separator: the suffix after the
last (left-to-right, non-overlapping) occurrence of `sep`. -/
def splitLast (sep : PyStr) (s : PyStr) : PyStr :=
  if sep.length = 0 then s else splitLastAux (s.length + 1) sep s

/-- Python `s.split(sep)[0]` for a non-empty separator: the text before the
first occurrence of `sep` (all of `s` when `sep` does not occur). -/
def splitFirst (sep : PyStr) (s : PyStr) : PyStr :=
  match findSub sep s with
  | none => s
  | some i => s.take i

/-- The canonical URI head `"spotify:album:"`. -/
def canonHead : PyStr := strCodes "spotify:album:"

/-- The web-link path segment recognized by the code. -/
def webMark : PyStr := strCodes "open.spotify.com/album/"

/-- `validate_album_uri` from `play_album.py`. -/
def validate_album_uri (uri : PyStr) : Bool :=
  if uri = [] then false
  else
    let u := pyStrip uri
    if pyStartsWith u canonHead && (splitLast canonHead u).length > 0 then true
    else if pyContains u webMark then true
    else false

/-- The id extraction `uri.split("/album/")[-1].split("?")[0].split("/")[0]`. -/
def webId (u : PyStr) : PyStr :=
  splitFirst (strCodes "/") (splitFirst (strCodes "?") (splitLast (strCodes "/album/") u))

/-- `normalize_album_uri` from `play_album.py`. -/
def normalize_album_uri (uri : PyStr) : PyStr :=
  let u := pyStrip uri
  if pyStartsWith u canonHead then u
  else if pyContains u webMark then canonHead ++ webId u
  else if !(pyContains u (strCodes ":")) && !(pyContains u (strCodes "http")) then
    canonHead ++ u
  else u

/-- The raw block dictionary handed to `parse_nfc_data`: block index to the
block's data string (one byte read back as one codepoint < 256). -/
abbrev RawBlockSet := List (Nat × PyStr)

/-- Python `block_data_dict[idx]` (first binding wins, as in a dict). -/
def lookupB (d : RawBlockSet) (k : Nat) : Option PyStr :=
  (d.find? (fun p => p.1 == k)).map Prod.snd

/-- The dict's keys, in insertion order. -/
def keysOf (d : RawBlockSet) : List Nat := d.map Prod.fst

/-- Python `sorted(keys)`. -/
def sortKeys (l : List Nat) : List Nat := l.insertionSort (· ≤ ·)

/-- Python `max(keys)` (the code only evaluates it on a non-empty dict). -/
def maxKey (d : RawBlockSet) : Nat := (keysOf d).foldr max 0

/-- Python `block_str.encode('latin-1')`: identity on codepoints below 256,
raises (here: `none`) otherwise. -/
def encodeLatin1 (s : PyStr) : Option (List Nat) :=
  if s.all (· < 256) then some s else none

/-- The marker bytes `b'spotify'`. -/
def marker : List Nat := strCodes "spotify"

/-- The per-block scan of step 2: does this block's latin-1 encoding contain
the marker?  An encoding failure is swallowed (`except: pass`). -/
def blockHasMarker (s : PyStr) : Bool :=
  match encodeLatin1 s with
  | some bs => pyContains bs marker
  | none => false

/-- The loop body's test at one index: look the block up and scan it. -/
def blockAtHasMarker (d : RawBlockSet) (idx : Nat) : Bool :=
  match lookupB d idx with
  | some s => blockHasMarker s
  | none => false

/-- The first block index (in ascending key order) whose data contains the
marker, as found by the loop in `parse_nfc_data`. -/
def startBlockOf (d : RawBlockSet) : Option Nat :=
  (sortKeys (keysOf d)).find? (blockAtHasMarker d)

/-- Bytes contributed by block `idx` to the assembled buffer: nothing when the
index is absent or the block fails to encode. -/
def blockBytes (d : RawBlockSet) (idx : Nat) : List Nat :=
  match lookupB d idx with
  | some s => (encodeLatin1 s).getD []
  | none => []

/-- Bytes collected by `for idx in range(start_block, max + 1)`. -/
def collectRange (d : RawBlockSet) (b : Nat) : List Nat :=
  (((List.range (maxKey d + 1 - b)).map (· + b)).map (blockBytes d)).flatten

/-- Bytes collected by the fallback loop over all sorted keys. -/
def collectAllB (d : RawBlockSet) : List Nat :=
  ((sortKeys (keysOf d)).map (blockBytes d)).flatten

/-- The assembled byte buffer `all_bytes` of `parse_nfc_data`. -/
def allBytesOf (d : RawBlockSet) : List Nat :=
  match startBlockOf d with
  | some b => collectRange d b
  | none => collectAllB d

/-- The allow-list in `chr(b) not in 'àá>þ'`. -/
def allowHigh : List Nat := strCodes "àá>þ"

/-- The stop condition `b == 0 or (b > 127 and chr(b) not in 'àá>þ')`. -/
def stopByte (b : Nat) : Bool := b == 0 || (b > 127 && !(allowHigh.contains b))

/-- The truncation scan: first index `i` (counting from the accumulator) with
`stopByte` set and `i > 10`, mirroring the `enumerate` loop. -/
def findEndAux : Nat → List Nat → Option Nat
  | _, [] => none
  | i, b :: bs => if stopByte b && decide (10 < i) then some i else findEndAux (i + 1) bs

/-- Python's `end_pos`: the scan result, defaulting to the slice length. -/
def findEnd (rel : List Nat) : Nat := (findEndAux 0 rel).getD rel.length

/-- Validity of the first continuation byte after a three-byte lead, per the
UTF-8 ranges CPython enforces (excluding overlongs and surrogates). -/
def utf8Cont2Ok (b c : Nat) : Bool :=
  if b == 224 then 160 ≤ c && c ≤ 191
  else if b == 237 then 128 ≤ c && c ≤ 159
  else 128 ≤ c && c ≤ 191

/-- Validity of the first continuation byte after a four-byte lead. -/
def utf8Cont4Ok (b c : Nat) : Bool :=
  if b == 240 then 144 ≤ c && c ≤ 191
  else if b == 244 then 128 ≤ c && c ≤ 143
  else 128 ≤ c && c ≤ 191

/-- A continuation byte. -/
def utf8ContOk (c : Nat) : Bool := 128 ≤ c && c ≤ 191

/-- Helper for `utf8DecodeIgnore`; every step consumes at least one byte while
spending exactly one unit of fuel, so fuel equal to the input length (as passed
by the wrapper) never runs out before the byte list does. -/
def utf8DecodeIgnoreAux : Nat → List Nat → List Nat
  | 0, _ => []
  | _, [] => []
  | fuel + 1, b :: bs =>
    if b < 128 then b :: utf8DecodeIgnoreAux fuel bs
    else if 194 ≤ b && b ≤ 223 then
      match bs with
      | [] => []
      | c :: cs =>
        if utf8ContOk c then ((b - 192) * 64 + (c - 128)) :: utf8DecodeIgnoreAux fuel cs
        else utf8DecodeIgnoreAux fuel (c :: cs)
    else if 224 ≤ b && b ≤ 239 then
      match bs with
      | [] => []
      | c :: cs =>
        if utf8Cont2Ok b c then
          match cs with
          | [] => []
          | c2 :: cs2 =>
            if utf8ContOk c2 then
              ((b - 224) * 4096 + (c - 128) * 64 + (c2 - 128)) :: utf8DecodeIgnoreAux fuel cs2
            else utf8DecodeIgnoreAux fuel (c2 :: cs2)
        else utf8DecodeIgnoreAux fuel (c :: cs)
    else if 240 ≤ b && b ≤ 244 then
      match bs with
      | [] => []
      | c :: cs =>
        if utf8Cont4Ok b c then
          match cs with
          | [] => []
          | c2 :: cs2 =>
            if utf8ContOk c2 then
              match cs2 with
              | [] => []
              | c3 :: cs3 =>
                if utf8ContOk c3 then
                  ((b - 240) * 262144 + (c - 128) * 4096 + (c2 - 128) * 64 + (c3 - 128)) ::
                    utf8DecodeIgnoreAux fuel cs3
                else utf8DecodeIgnoreAux fuel (c3 :: cs3)
            else utf8DecodeIgnoreAux fuel (c2 :: cs2)
        else utf8DecodeIgnoreAux fuel (c :: cs)
    else utf8DecodeIgnoreAux fuel bs

/-- Python `bytes.decode('utf-8', errors='ignore')`: decode, skipping each
maximal ill-formed subpart; a sequence truncated by end of input is dropped. -/
def utf8DecodeIgnore (l : List Nat) : List Nat := utf8DecodeIgnoreAux l.length l

/-- The final string assembly step of `parse_nfc_data`:
`relevant_bytes[:end_pos].decode('utf-8', errors='ignore').rstrip('\x00').strip()`. -/
def finishSlice (rel : List Nat) : PyStr :=
  pyStrip (rstripNull (utf8DecodeIgnore (rel.take (findEnd rel))))

/-- `parse_nfc_data` from `read_nfc_ndef.py`; `none` models the `return None`
paths. -/
def parse_nfc_data (d : RawBlockSet) : Option PyStr :=
  let ab := allBytesOf d
  if ab = [] then none
  else
    match findSub marker ab with
    | none => none
    | some i => some (finishSlice (ab.drop i))

/-- The spec-level contract `reconstruct(blocks) -> (text, found)`: the parsed
text when any, with `found` exactly when that text is truthy (non-empty). -/
def reconstruct (d : RawBlockSet) : PyStr × Bool :=
  match parse_nfc_data d with
  | some t => (t, !t.isEmpty)
  | none => ([], false)

/-- The suffix of the assembled buffer from the first marker occurrence —
the slice `parse_nfc_data` goes on to truncate and decode. -/
def markerSuffix (d : RawBlockSet) : Option (List Nat) :=
  (findSub marker (allBytesOf d)).map (fun i => (allBytesOf d).drop i)

theorem findSub_some_pre {pat l : PyStr} {i : Nat} (h : findSub pat l = some i) :
    pat <+: l.drop i := by
  induction l generalizing i with
  | nil =>
    simp only [findSub] at h
    split at h
    · rename_i hp
      cases h
      simpa using isPrefixOf_iff'.mp hp
    · simp at h
  | cons c cs ih =>
    simp only [findSub] at h
    split at h
    · rename_i hp
      cases h
      simpa using isPrefixOf_iff'.mp hp
    · rcases Option.map_eq_some'.mp h with ⟨j, hj, rfl⟩
      simpa using ih hj

theorem findSub_isSome_iff {pat l : PyStr} : (findSub pat l).isSome = true ↔ pat <:+: l := by
  induction l with
  | nil =>
    rw [findSub]
    by_cases hp : List.isPrefixOf pat ([] : PyStr) = true
    · rw [if_pos hp]
      simp only [Option.isSome_some, true_iff]
      exact (isPrefixOf_iff'.mp hp).isInfix
    · rw [if_neg hp]
      simp only [Option.isSome_none, Bool.false_eq_true, false_iff, List.infix_nil]
      intro he
      subst he
      exact hp (isPrefixOf_iff'.mpr List.nil_prefix)
  | cons c cs ih =>
    rw [findSub]
    by_cases hp : List.isPrefixOf pat (c :: cs) = true
    · rw [if_pos hp]
      simp only [Option.isSome_some, true_iff]
      exact (isPrefixOf_iff'.mp hp).isInfix
    · rw [if_neg hp, List.infix_cons_iff]
      cases hf : findSub pat cs with
      | none =>
        have hni : ¬ pat <:+: cs := by rw [← ih, hf]; simp
        simp only [Option.map_none', Option.isSome_none, Bool.false_eq_true, false_iff]
        rintro (h | h)
        · exact hp (isPrefixOf_iff'.mpr h)
        · exact hni h
      | some j =>
        have hin : pat <:+: cs := by rw [← ih, hf]; simp
        simp only [Option.map_some', Option.isSome_some, true_iff]
        exact Or.inr hin

theorem findSub_eq_none_iff {pat l : PyStr} : findSub pat l = none ↔ ¬ pat <:+: l := by
  rw [← findSub_isSome_iff]
  cases findSub pat l <;> simp

theorem pyContains_iff {s pat : PyStr} : pyContains s pat = true ↔ pat <:+: s :=
  findSub_isSome_iff

theorem lookupB_some_mem {d : RawBlockSet} {k : Nat} {s : PyStr} (h : lookupB d k = some s) :
    (k, s) ∈ d := by
  rcases Option.map_eq_some'.mp h with ⟨pr, hpr, hs⟩
  have hmem := List.mem_of_find?_eq_some hpr
  have hp : pr.1 = k := by simpa using List.find?_some hpr
  rcases pr with ⟨k', s'⟩
  cases hp
  cases hs
  exact hmem

theorem lookupB_isSome_of_mem_keys {d : RawBlockSet} {k : Nat} (h : k ∈ keysOf d) :
    ∃ s, lookupB d k = some s := by
  rcases List.mem_map.mp h with ⟨pr, hpr, hk⟩
  have : ((d.find? (fun p => p.1 == k)).isSome) = true := by
    rw [List.find?_isSome]
    exact ⟨pr, hpr, by simp [hk]⟩
  rcases Option.isSome_iff_exists.mp this with ⟨pr', hpr'⟩
  exact ⟨pr'.2, by rw [lookupB, hpr', Option.map_some']⟩

theorem blockHasMarker_iff {s : PyStr} :
    blockHasMarker s = true ↔ s.all (· < 256) = true ∧ marker <:+: s := by
  by_cases hall : s.all (· < 256) = true
  · simp [blockHasMarker, encodeLatin1, hall, pyContains_iff]
  · simp [blockHasMarker, encodeLatin1, hall]

theorem blockBytes_eq {d : RawBlockSet} {k : Nat} {s : PyStr} (hl : lookupB d k = some s)
    (hall : s.all (· < 256) = true) : blockBytes d k = s := by
  simp [blockBytes, hl, encodeLatin1, hall]

theorem blockBytes_infix {d : RawBlockSet} {idx : Nat} (h : idx ∈ sortKeys (keysOf d)) :
    blockBytes d idx <:+: collectAllB d :=
  List.infix_of_mem_flatten (List.mem_map_of_mem _ h)

theorem startBlockOf_eq_none {d : RawBlockSet} (h : ¬ marker <:+: collectAllB d) :
    startBlockOf d = none := by
  rw [startBlockOf, List.find?_eq_none]
  intro idx hidx hpred
  rw [blockAtHasMarker] at hpred
  cases hl : lookupB d idx with
  | none => simp [hl] at hpred
  | some s =>
    simp only [hl] at hpred
    obtain ⟨hall, hmk⟩ := blockHasMarker_iff.mp hpred
    have hb : blockBytes d idx = s := blockBytes_eq hl hall
    exact h (hmk.trans (hb ▸ blockBytes_infix hidx))

/-- C1 (amended): when the marker bytes occur nowhere in the assembled buffer,
`reconstruct` returns empty text and `found = false` — the code never decodes
the marker-less buffer. -/
theorem claim_C1_thm (d : RawBlockSet) (h : ¬ marker <:+: collectAllB d) :
    reconstruct d = ([], false) := by
  have hstart := startBlockOf_eq_none h
  have hab : allBytesOf d = collectAllB d := by rw [allBytesOf, hstart]
  by_cases hnil : collectAllB d = []
  · simp [reconstruct, parse_nfc_data, hab, hnil]
  · have hf : findSub marker (collectAllB d) = none := findSub_eq_none_iff.mpr h
    simp [reconstruct, parse_nfc_data, hab, hnil, hf]

/-- C1 counterexample: the blocks `{0: "hello"}` contain no marker, their full
assembled buffer decodes to the non-empty text `"hello"`, yet `reconstruct`
returns `found = false` with empty text — not the decoded buffer text. -/
theorem claim_C1_cex :
    ¬ marker <:+: collectAllB [(0, strCodes "hello")] ∧
    pyStrip (rstripNull (utf8DecodeIgnore (collectAllB [(0, strCodes "hello")]))) =
      strCodes "hello" ∧
    reconstruct [(0, strCodes "hello")] = ([], false) := by
  refine ⟨?_, by decide, by decide⟩
  decide

/-- Witness for `claim_C1_thm` at the concrete marker-free input `{3: "abc"}`. -/
theorem claim_C1_witness :
    ¬ marker <:+: collectAllB [(3, strCodes "abc")] ∧
    reconstruct [(3, strCodes "abc")] = ([], false) :=
  ⟨by decide, claim_C1_thm _ (by decide)⟩

/-- C7: the web URL with a query string normalizes to the canonical URI, which
validates. -/
theorem claim_C7_thm :
    normalize_album_uri (strCodes "https://open.spotify.com/album/4iV5W9uYEdYUVa79Axb7Rh?si=abc") =
      strCodes "spotify:album:4iV5W9uYEdYUVa79Axb7Rh" ∧
    validate_album_uri (strCodes "spotify:album:4iV5W9uYEdYUVa79Axb7Rh") = true := by
  exact ⟨by decide, by decide⟩

/-- C9: `reconstruct` is a total function on raw block sets — every input
yields a structured `(text, found)` result — and the empty block set yields
`([], false)`. -/
theorem claim_C9_thm :
    (∀ d : RawBlockSet, ∃ t f, reconstruct d = (t, f)) ∧
    reconstruct ([] : RawBlockSet) = ([], false) :=
  ⟨fun _ => ⟨_, _, rfl⟩, by decide⟩

theorem pyStrip_nil_of_all_space {s : PyStr} (h : s.all isPySpace = true) : pyStrip s = [] := by
  have h1 : s.dropWhile isPySpace = [] :=
    List.dropWhile_eq_nil_iff.mpr (fun x hx => by
      have := List.all_eq_true.mp h x hx
      simpa using this)
  rw [pyStrip, h1]
  rfl

/-- C10: every whitespace-only input normalizes to the bare canonical head
`"spotify:album:"` (empty id), which validation rejects. -/
theorem claim_C10_thm (x : PyStr) (h : x.all isPySpace = true) :
    normalize_album_uri x = canonHead ∧
    validate_album_uri (normalize_album_uri x) = false := by
  have h0 : pyStrip x = [] := pyStrip_nil_of_all_space h
  have hc1 : pyStartsWith ([] : PyStr) canonHead = false := by decide
  have hc2 : pyContains ([] : PyStr) webMark = false := by decide
  have hc3 : pyContains ([] : PyStr) (strCodes ":") = false := by decide
  have hc4 : pyContains ([] : PyStr) (strCodes "http") = false := by decide
  have hn : normalize_album_uri x = canonHead := by
    simp [normalize_album_uri, h0, hc1, hc2, hc3, hc4]
  refine ⟨hn, ?_⟩
  rw [hn]
  decide

/-- Witness for `claim_C10_thm` at the whitespace-only input `" \t "`. -/
theorem claim_C10_witness :
    normalize_album_uri (strCodes " \t ") = canonHead ∧
    validate_album_uri (normalize_album_uri (strCodes " \t ")) = false :=
  claim_C10_thm _ (by decide)

theorem sortKeys_sorted (l : List Nat) : (sortKeys l).Sorted (· ≤ ·) :=
  List.sorted_insertionSort _ l

theorem sortKeys_perm (l : List Nat) : List.Perm (sortKeys l) l :=
  List.perm_insertionSort _ l

theorem find?_sorted_first {p : Nat → Bool} {l : List Nat} (hs : l.Sorted (· ≤ ·))
    (hnd : l.Nodup) {B : Nat} (hB : B ∈ l) (hpB : p B = true)
    (hlt : ∀ k ∈ l, k < B → p k = false) : l.find? p = some B := by
  induction l with
  | nil => cases hB
  | cons a t ih =>
    by_cases ha : a = B
    · subst ha
      rw [List.find?_cons_of_pos _ hpB]
    · have hBt : B ∈ t := by
        cases hB with
        | head => exact absurd rfl ha
        | tail _ h => exact h
      have haB : a < B := lt_of_le_of_ne (List.rel_of_sorted_cons hs B hBt) ha
      rw [List.find?_cons_of_neg]
      · exact ih hs.of_cons (List.Nodup.of_cons hnd) hBt
          (fun k hk hklt => hlt k (List.mem_cons_of_mem _ hk) hklt)
      · rw [hlt a (List.mem_cons_self a t) haB]
        simp

/-- C2: with B the first block index (ascending) whose data contains the whole
marker, the assembled buffer is exactly the concatenation of the blocks from B
through the maximum available index in ascending order, skipping missing
indices; in particular the concrete split input yields
`"spotify:album:ABC123"`. -/
theorem claim_C2_thm :
    (∀ (d : RawBlockSet) (B : Nat), (keysOf d).Nodup → B ∈ keysOf d →
      blockAtHasMarker d B = true →
      (∀ k ∈ keysOf d, k < B → blockAtHasMarker d k = false) →
      startBlockOf d = some B ∧ allBytesOf d = collectRange d B) ∧
    reconstruct [(4, strCodes "xxspotify:al"), (8, strCodes "bum:ABC123\x00\x00")] =
      (strCodes "spotify:album:ABC123", true) := by
  constructor
  · intro d B hnd hB hpB hlt
    have hsort : startBlockOf d = some B := by
      rw [startBlockOf]
      refine find?_sorted_first (sortKeys_sorted _) ((sortKeys_perm _).symm.nodup hnd)
        ((sortKeys_perm _).mem_iff.mpr hB) hpB ?_
      intro k hk hklt
      exact hlt k ((sortKeys_perm _).mem_iff.mp hk) hklt
    exact ⟨hsort, by rw [allBytesOf, hsort]⟩
  · decide

/-- Witness for the universal part of `claim_C2_thm` at the claim's concrete
input, whose first marker block is 4. -/
theorem claim_C2_witness :
    startBlockOf [(4, strCodes "xxspotify:al"), (8, strCodes "bum:ABC123\x00\x00")] = some 4 ∧
    allBytesOf [(4, strCodes "xxspotify:al"), (8, strCodes "bum:ABC123\x00\x00")] =
      collectRange [(4, strCodes "xxspotify:al"), (8, strCodes "bum:ABC123\x00\x00")] 4 :=
  claim_C2_thm.1 _ 4 (by decide) (by decide) (by decide) (by decide)

theorem findEndAux_none {l : List Nat} {k : Nat} (h : findEndAux k l = none) :
    ∀ j, j < l.length → ¬(stopByte (l.getD j 0) = true ∧ 10 < k + j) := by
  induction l generalizing k with
  | nil => intro j hj; simp at hj
  | cons b bs ih =>
    rw [findEndAux] at h
    split at h
    · simp at h
    · rename_i hcond
      intro j hj hcontra
      cases j with
      | zero =>
        apply hcond
        have hsb : stopByte b = true := by simpa using hcontra.1
        have hk : 10 < k := by have := hcontra.2; omega
        simp [hsb, hk]
      | succ j' =>
        refine ih h j' (by simpa using hj)
          ⟨by simpa using hcontra.1, by have := hcontra.2; omega⟩

theorem findEndAux_some {l : List Nat} {k e : Nat} (h : findEndAux k l = some e) :
    k ≤ e ∧ e - k < l.length ∧ stopByte (l.getD (e - k) 0) = true ∧ 10 < e ∧
      ∀ j, j < e - k → ¬(stopByte (l.getD j 0) = true ∧ 10 < k + j) := by
  induction l generalizing k with
  | nil => simp [findEndAux] at h
  | cons b bs ih =>
    rw [findEndAux] at h
    split at h
    · rename_i hcond
      injection h with he
      subst he
      obtain ⟨h1, h2⟩ := Bool.and_eq_true_iff.mp hcond
      refine ⟨le_refl k, by simp, by simpa [Nat.sub_self] using h1,
        of_decide_eq_true h2, ?_⟩
      intro j hj
      simp [Nat.sub_self] at hj
    · rename_i hcond
      obtain ⟨hk, hlen, hsb, h10, hmin⟩ := ih h
      have hke : k ≤ e := le_trans (Nat.le_succ k) hk
      have hek : e - k = (e - (k + 1)) + 1 := by omega
      refine ⟨hke, ?_, ?_, h10, ?_⟩
      · rw [hek]
        simp only [List.length_cons]
        omega
      · rw [hek]
        simpa using hsb
      · intro j hj hcontra
        cases j with
        | zero =>
          apply hcond
          have hsb0 : stopByte b = true := by simpa using hcontra.1
          have hk0 : 10 < k := by have := hcontra.2; omega
          simp [hsb0, hk0]
        | succ j' =>
          refine hmin j' (by rw [hek] at hj; omega)
            ⟨by simpa using hcontra.1, by have := hcontra.2; omega⟩

/-- C4 (amended): after slicing at the marker offset the output is assembled
from the slice truncated at `findEnd`, and `findEnd` is exactly the earliest
index whose byte satisfies the stop condition with MORE than 10 bytes already
accepted (`i > 10`, i.e. at least 11) — or the slice length when no such index
exists. -/
theorem claim_C4_thm (d : RawBlockSet) (i : Nat) (rel : List Nat)
    (hfind : findSub marker (allBytesOf d) = some i)
    (hrel : rel = (allBytesOf d).drop i) :
    parse_nfc_data d = some (finishSlice rel) ∧
    ((findEnd rel = rel.length ∧
        ∀ j, j < rel.length → ¬(stopByte (rel.getD j 0) = true ∧ 10 < j)) ∨
      (findEnd rel < rel.length ∧ stopByte (rel.getD (findEnd rel) 0) = true ∧
        10 < findEnd rel ∧
        ∀ j, j < findEnd rel → ¬(stopByte (rel.getD j 0) = true ∧ 10 < j))) := by
  subst hrel
  constructor
  · have hone : findSub marker ([] : List Nat) = none := by decide
    have hab : allBytesOf d ≠ [] := by
      intro hnil
      rw [hnil, hone] at hfind
      cases hfind
    simp [parse_nfc_data, hab, hfind]
  · rw [findEnd]
    cases hfe : findEndAux 0 ((allBytesOf d).drop i) with
    | none =>
      left
      refine ⟨rfl, ?_⟩
      intro j hj
      simpa using findEndAux_none hfe j hj
    | some e =>
      right
      obtain ⟨_, hlen, hsb, h10, hmin⟩ := findEndAux_some hfe
      simp only [Option.getD_some]
      refine ⟨by simpa using hlen, by simpa using hsb, h10, ?_⟩
      intro j hj hc
      exact hmin j (by omega) ⟨hc.1, by omega⟩

/-- Helper for `floorTenEnd`. -/
def floorTenEndAux : Nat → List Nat → Option Nat
  | _, [] => none
  | i, b :: bs =>
    if stopByte b && decide (10 ≤ i) then some i else floorTenEndAux (i + 1) bs

/-- Modelled from the claim's words as the truncation point C4 asserts: the
earliest position with a stop byte once AT LEAST 10 bytes have been accepted
(floor `i ≥ 10`), to be compared with the code's `findEnd` (`i > 10`). -/
def floorTenEnd (rel : List Nat) : Nat := (floorTenEndAux 0 rel).getD rel.length

/-- C4 counterexample: the slice `"spotify:ab" ++ [0xC8, 'X']` has a disallowed
byte at index 10, i.e. exactly 10 bytes accepted; the claim's floor truncates
to `"spotify:ab"`, but the code does not truncate there and returns
`"spotify:abX"`. -/
theorem claim_C4_cex :
    allBytesOf [(0, strCodes "spotify:abÈX")] = strCodes "spotify:abÈX" ∧
    findSub marker (strCodes "spotify:abÈX") = some 0 ∧
    reconstruct [(0, strCodes "spotify:abÈX")] = (strCodes "spotify:abX", true) ∧
    pyStrip (rstripNull (utf8DecodeIgnore ((strCodes "spotify:abÈX").take
      (floorTenEnd (strCodes "spotify:abÈX"))))) = strCodes "spotify:ab" ∧
    strCodes "spotify:abX" ≠ strCodes "spotify:ab" := by decide

/-- Witness for `claim_C4_thm` at `{0: "spotify:album:x"}` with marker offset 0. -/
theorem claim_C4_witness :
    parse_nfc_data [(0, strCodes "spotify:album:x")] =
      some (finishSlice (strCodes "spotify:album:x")) ∧
    ((findEnd (strCodes "spotify:album:x") = (strCodes "spotify:album:x").length ∧
        ∀ j, j < (strCodes "spotify:album:x").length →
          ¬(stopByte ((strCodes "spotify:album:x").getD j 0) = true ∧ 10 < j)) ∨
      (findEnd (strCodes "spotify:album:x") < (strCodes "spotify:album:x").length ∧
        stopByte ((strCodes "spotify:album:x").getD (findEnd (strCodes "spotify:album:x")) 0) = true ∧
        10 < findEnd (strCodes "spotify:album:x") ∧
        ∀ j, j < findEnd (strCodes "spotify:album:x") →
          ¬(stopByte ((strCodes "spotify:album:x").getD j 0) = true ∧ 10 < j))) :=
  claim_C4_thm _ 0 _ (by decide) (by decide)

theorem validate_eq_true_iff {s : PyStr} :
    validate_album_uri s = true ↔
      s ≠ [] ∧ ((pyStartsWith (pyStrip s) canonHead = true ∧
        0 < (splitLast canonHead (pyStrip s)).length) ∨
        pyContains (pyStrip s) webMark = true) := by
  simp only [validate_album_uri]
  split_ifs with h1 h2 h3 <;>
    simp_all [Bool.and_eq_true, decide_eq_true_eq]

/-- C5 (amended): `validate` rejects the empty string and the bare canonical
head, and every accepted string, AFTER stripping surrounding whitespace,
either starts with the canonical head with a non-empty remainder after its
last occurrence, or contains the web-link path segment. -/
theorem claim_C5_thm :
    validate_album_uri (strCodes "") = false ∧
    validate_album_uri canonHead = false ∧
    ∀ s : PyStr, validate_album_uri s = true →
      (pyStartsWith (pyStrip s) canonHead = true ∧ splitLast canonHead (pyStrip s) ≠ []) ∨
      pyContains (pyStrip s) webMark = true := by
  refine ⟨by decide, by decide, ?_⟩
  intro s hv
  obtain ⟨-, h⟩ := validate_eq_true_iff.mp hv
  rcases h with ⟨ha, hb⟩ | h2
  · refine Or.inl ⟨ha, ?_⟩
    intro hemp
    rw [hemp] at hb
    simp at hb
  · exact Or.inr h2

/-- C5 counterexample: `" spotify:album:x"` (leading space) is accepted by
`validate`, yet the string itself neither starts with the canonical head nor
contains the web-link segment — the claim's universal part fails without the
stripping step. -/
theorem claim_C5_cex :
    validate_album_uri (strCodes " spotify:album:x") = true ∧
    pyStartsWith (strCodes " spotify:album:x") canonHead = false ∧
    pyContains (strCodes " spotify:album:x") webMark = false := by decide

/-- Witness for the universal part of `claim_C5_thm` at `"spotify:album:x"`. -/
theorem claim_C5_witness :
    validate_album_uri (strCodes "spotify:album:x") = true ∧
    ((pyStartsWith (pyStrip (strCodes "spotify:album:x")) canonHead = true ∧
      splitLast canonHead (pyStrip (strCodes "spotify:album:x")) ≠ []) ∨
      pyContains (pyStrip (strCodes "spotify:album:x")) webMark = true) :=
  ⟨by decide, claim_C5_thm.2.2 _ (by decide)⟩

theorem rdropWhile_append' (p : Nat → Bool) (a b : PyStr) :
    List.rdropWhile p (a ++ b) =
      if List.rdropWhile p b = [] then List.rdropWhile p a else a ++ List.rdropWhile p b := by
  rw [List.rdropWhile, List.reverse_append, List.dropWhile_append]
  by_cases hb : List.dropWhile p b.reverse = []
  · rw [if_pos (by rw [hb]; rfl), if_pos (by rw [List.rdropWhile, hb]; rfl)]
    rw [List.rdropWhile]
  · rw [if_neg ?_, if_neg ?_]
    · rw [List.reverse_append, List.reverse_reverse, List.rdropWhile]
    · simp [List.rdropWhile, hb]
    · simp [List.isEmpty_iff, hb]

theorem dropWhile_pyStrip (s : PyStr) :
    List.dropWhile isPySpace (pyStrip s) = pyStrip s := by
  rw [pyStrip, List.dropWhile_eq_self_iff]
  intro hl
  have hpref : (s.dropWhile isPySpace).rdropWhile isPySpace <+: s.dropWhile isPySpace :=
    List.rdropWhile_prefix _ _
  have hl2 : 0 < (s.dropWhile isPySpace).length := lt_of_lt_of_le hl hpref.length_le
  have hget := List.dropWhile_get_zero_not isPySpace s hl2
  simp only [List.get_eq_getElem] at hget ⊢
  rw [hpref.getElem hl]
  exact hget

theorem pyStrip_idem (s : PyStr) : pyStrip (pyStrip s) = pyStrip s := by
  have h1 : pyStrip (pyStrip s) = ((pyStrip s).dropWhile isPySpace).rdropWhile isPySpace := rfl
  rw [h1, dropWhile_pyStrip s]
  have h2 : pyStrip s = (s.dropWhile isPySpace).rdropWhile isPySpace := rfl
  rw [h2, List.rdropWhile_idempotent]

theorem norm_of_startsWith {y : PyStr} (h : pyStartsWith (pyStrip y) canonHead = true) :
    normalize_album_uri y = pyStrip y := by
  simp [normalize_album_uri, h]

theorem dropWhile_head_append (aid : PyStr) :
    List.dropWhile isPySpace (canonHead ++ aid) = canonHead ++ aid := by
  rw [List.dropWhile_append]
  have h1 : canonHead.dropWhile isPySpace = canonHead := by decide
  rw [h1]
  have h2 : canonHead.isEmpty = false := by decide
  rw [h2]
  simp

theorem canonHead_isPre_strip (aid : PyStr) :
    canonHead <+: pyStrip (canonHead ++ aid) := by
  rw [pyStrip, dropWhile_head_append, rdropWhile_append']
  by_cases hb : List.rdropWhile isPySpace aid = []
  · rw [if_pos hb]
    have h3 : List.rdropWhile isPySpace canonHead = canonHead := by decide
    rw [h3]
  · rw [if_neg hb]
    exact List.prefix_append _ _

/-- C6 (amended): a second application of `normalize` returns the first
result stripped of surrounding whitespace; `normalize (normalize x)` equals
`normalize x` exactly when `normalize x` carries no trailing whitespace, which
fails when the extracted web-link id ends in whitespace. -/
theorem claim_C6_thm (x : PyStr) :
    normalize_album_uri (normalize_album_uri x) = pyStrip (normalize_album_uri x) := by
  by_cases h1 : pyStartsWith (pyStrip x) canonHead = true
  · have hx : normalize_album_uri x = pyStrip x := by simp [normalize_album_uri, h1]
    rw [hx]
    apply norm_of_startsWith
    rw [pyStrip_idem]
    exact h1
  · by_cases h2 : pyContains (pyStrip x) webMark = true
    · have hx : normalize_album_uri x = canonHead ++ webId (pyStrip x) := by
        simp [normalize_album_uri, h1, h2]
      rw [hx]
      apply norm_of_startsWith
      rw [pyStartsWith]
      exact isPrefixOf_iff'.mpr (canonHead_isPre_strip _)
    · by_cases h3 : (!(pyContains (pyStrip x) (strCodes ":")) &&
          !(pyContains (pyStrip x) (strCodes "http"))) = true
      · have hx : normalize_album_uri x = canonHead ++ pyStrip x := by
          simp [normalize_album_uri, h1, h2, h3]
        rw [hx]
        apply norm_of_startsWith
        rw [pyStartsWith]
        exact isPrefixOf_iff'.mpr (canonHead_isPre_strip _)
      · have hx : normalize_album_uri x = pyStrip x := by
          simp [normalize_album_uri, h1, h2, h3]
        rw [hx]
        have hs := pyStrip_idem x
        simp [normalize_album_uri, hs, h1, h2, h3]

/-- C6 counterexample: for `"open.spotify.com/album/ab ?si=1"` the extracted
id keeps a trailing space, so `normalize` yields `"spotify:album:ab "` while a
second `normalize` strips it — idempotence fails. -/
theorem claim_C6_cex :
    normalize_album_uri (strCodes "open.spotify.com/album/ab ?si=1") =
      strCodes "spotify:album:ab " ∧
    normalize_album_uri (normalize_album_uri (strCodes "open.spotify.com/album/ab ?si=1")) =
      strCodes "spotify:album:ab" ∧
    normalize_album_uri (normalize_album_uri (strCodes "open.spotify.com/album/ab ?si=1")) ≠
      normalize_album_uri (strCodes "open.spotify.com/album/ab ?si=1") := by decide

theorem findSub_of_pre {pat s : PyStr} (h : List.isPrefixOf pat s = true) :
    findSub pat s = some 0 := by
  cases s <;> simp [findSub, h]

theorem splitLastAux_of_none {f : Nat} {sep s : PyStr} (h : findSub sep s = none) :
    splitLastAux f sep s = s := by
  cases f with
  | zero => rfl
  | succ f' => simp [splitLastAux, h]

theorem colon_infix_of_canonHead_pre {u : PyStr} (h : canonHead <+: u) :
    pyContains u (strCodes ":") = true := by
  rw [pyContains_iff]
  exact ((by decide : (strCodes ":") <:+: canonHead)).trans h.isInfix

theorem not_canonHead_within {u : PyStr} (h : pyContains u (strCodes ":") = false) :
    ¬ canonHead <:+: u := by
  intro hinf
  have hc : pyContains u (strCodes ":") = true := by
    rw [pyContains_iff]
    exact ((by decide : (strCodes ":") <:+: canonHead)).trans hinf
  rw [h] at hc
  cases hc

theorem splitLastAux_succ (f : Nat) (sep s : PyStr) :
    splitLastAux (f + 1) sep s =
      match findSub sep s with
      | none => s
      | some i => splitLastAux f sep (s.drop (i + sep.length)) := rfl

theorem splitLast_head_append {u : PyStr} (h : ¬ canonHead <:+: u) :
    splitLast canonHead (canonHead ++ u) = u := by
  rw [splitLast, if_neg (by decide)]
  have h0 : findSub canonHead (canonHead ++ u) = some 0 :=
    findSub_of_pre (isPrefixOf_iff'.mpr (List.prefix_append _ _))
  have hnone : findSub canonHead u = none := findSub_eq_none_iff.mpr h
  have hstep : splitLastAux ((canonHead ++ u).length + 1) canonHead (canonHead ++ u) =
      splitLastAux (canonHead ++ u).length canonHead
        ((canonHead ++ u).drop (0 + canonHead.length)) := by
    rw [splitLastAux_succ, h0]
  rw [hstep, Nat.zero_add, List.drop_left]
  exact splitLastAux_of_none hnone

theorem pyStrip_head_append {u : PyStr} (hu : List.rdropWhile isPySpace u = u) :
    pyStrip (canonHead ++ u) = canonHead ++ u := by
  rw [pyStrip, dropWhile_head_append, rdropWhile_append']
  by_cases hb : List.rdropWhile isPySpace u = []
  · rw [if_pos hb]
    have hu0 : u = [] := by rw [← hu, hb]
    rw [hu0, List.append_nil]
    decide
  · rw [if_neg hb, hu]

/-- C8 (amended): for a bare identifier input whose stripped form is non-empty
and contains no `':'`, no `"http"` substring, and no web-link marker,
`normalize` wraps the stripped input as `spotify:album:<id>` and `validate`
accepts the result.  (The code's guard is `"http" not in uri`, stronger than
the claim's "no web-link marker".) -/
theorem claim_C8_thm (x : PyStr)
    (h1 : pyContains (pyStrip x) (strCodes ":") = false)
    (h2 : pyContains (pyStrip x) (strCodes "http") = false)
    (h3 : pyContains (pyStrip x) webMark = false)
    (h4 : pyStrip x ≠ []) :
    normalize_album_uri x = canonHead ++ pyStrip x ∧
    validate_album_uri (normalize_album_uri x) = true := by
  have hns : pyStartsWith (pyStrip x) canonHead = false := by
    cases hsw : pyStartsWith (pyStrip x) canonHead
    · rfl
    · exfalso
      have hpre : canonHead <+: pyStrip x := isPrefixOf_iff'.mp hsw
      have hc := colon_infix_of_canonHead_pre hpre
      rw [h1] at hc
      cases hc
  have hn : normalize_album_uri x = canonHead ++ pyStrip x := by
    simp [normalize_album_uri, hns, h3, h1, h2]
  refine ⟨hn, ?_⟩
  rw [hn, validate_eq_true_iff]
  have hstrip : pyStrip (canonHead ++ pyStrip x) = canonHead ++ pyStrip x := by
    apply pyStrip_head_append
    have hps : pyStrip x = (x.dropWhile isPySpace).rdropWhile isPySpace := rfl
    rw [hps, List.rdropWhile_idempotent]
  refine ⟨fun hc => absurd (List.append_eq_nil.mp hc).1 (by decide), Or.inl ⟨?_, ?_⟩⟩
  · rw [hstrip, pyStartsWith]
    exact isPrefixOf_iff'.mpr (List.prefix_append _ _)
  · rw [hstrip, splitLast_head_append (not_canonHead_within h1)]
    exact List.length_pos.mpr h4

/-- C8 counterexample: `"xhttp"` contains no `':'` and no web-link marker, so
by the claim `normalize` should wrap it; the code's extra `"http" not in uri`
guard makes it pass through unwrapped instead. -/
theorem claim_C8_cex :
    pyContains (strCodes "xhttp") (strCodes ":") = false ∧
    pyContains (strCodes "xhttp") webMark = false ∧
    pyStrip (strCodes "xhttp") = strCodes "xhttp" ∧
    normalize_album_uri (strCodes "xhttp") = strCodes "xhttp" ∧
    strCodes "xhttp" ≠ canonHead ++ strCodes "xhttp" := by decide

/-- Witness for `claim_C8_thm` at the claim's concrete bare id. -/
theorem claim_C8_witness :
    normalize_album_uri (strCodes "4iV5W9uYEdYUVa79Axb7Rh") =
      canonHead ++ pyStrip (strCodes "4iV5W9uYEdYUVa79Axb7Rh") ∧
    validate_album_uri (normalize_album_uri (strCodes "4iV5W9uYEdYUVa79Axb7Rh")) = true :=
  claim_C8_thm _ (by decide) (by decide) (by decide) (by decide)

theorem parse_eq_of_findSub {d : RawBlockSet} {i : Nat}
    (h : findSub marker (allBytesOf d) = some i) :
    parse_nfc_data d = some (finishSlice ((allBytesOf d).drop i)) := by
  have hone : findSub marker ([] : List Nat) = none := by decide
  have hab : allBytesOf d ≠ [] := by
    intro hnil
    rw [hnil, hone] at h
    cases h
  simp [parse_nfc_data, hab, h]

theorem utf8Aux_cons_ascii (f b : Nat) (t : List Nat) (hb : b < 128) :
    utf8DecodeIgnoreAux (f + 1) (b :: t) = b :: utf8DecodeIgnoreAux f t := by
  simp [utf8DecodeIgnoreAux, hb]

theorem utf8Aux_ascii (xs ys : List Nat) (h : ∀ b ∈ xs, b < 128) :
    utf8DecodeIgnoreAux (xs.length + ys.length) (xs ++ ys) =
      xs ++ utf8DecodeIgnoreAux ys.length ys := by
  induction xs with
  | nil => simp
  | cons b bs ih =>
    have hb : b < 128 := h b (List.mem_cons_self _ _)
    have hlen : (b :: bs).length + ys.length = (bs.length + ys.length) + 1 := by
      simp only [List.length_cons]
      omega
    rw [hlen, List.cons_append, utf8Aux_cons_ascii _ _ _ hb,
      ih (fun c hc => h c (List.mem_cons_of_mem _ hc))]
    rfl

theorem utf8_ascii_append (xs ys : List Nat) (h : ∀ b ∈ xs, b < 128) :
    utf8DecodeIgnore (xs ++ ys) = xs ++ utf8DecodeIgnore ys := by
  rw [utf8DecodeIgnore, utf8DecodeIgnore, List.length_append]
  exact utf8Aux_ascii xs ys h

theorem strip_cons_ne_nil {a : Nat} {l : List Nat} (h0 : a ≠ 0) (hs : isPySpace a = false) :
    pyStrip (rstripNull (a :: l)) ≠ [] := by
  have hz : rstripNull (a :: l) ≠ [] := by
    rw [rstripNull]
    intro hemp
    have ha := List.rdropWhile_eq_nil_iff.mp hemp a (List.mem_cons_self a l)
    simp at ha
    exact h0 ha
  have hpref : rstripNull (a :: l) <+: a :: l := List.rdropWhile_prefix _ _
  obtain ⟨x, t, hxt⟩ : ∃ x t, rstripNull (a :: l) = x :: t := by
    cases hc : rstripNull (a :: l) with
    | nil => exact absurd hc hz
    | cons x t => exact ⟨x, t, rfl⟩
  have hx : x = a := by
    rw [hxt] at hpref
    exact (List.cons_prefix_cons.mp hpref).1
  rw [hx] at hxt
  rw [hxt, pyStrip]
  have hd : List.dropWhile isPySpace (a :: t) = a :: t :=
    List.dropWhile_cons_of_neg (by simp [hs])
  rw [hd]
  intro hemp
  have ha := List.rdropWhile_eq_nil_iff.mp hemp a (List.mem_cons_self a t)
  rw [hs] at ha
  cases ha

theorem findEnd_ge_of_marker_pre {rel : List Nat} (h : marker <+: rel) :
    marker.length ≤ findEnd rel := by
  rw [findEnd]
  cases hfe : findEndAux 0 rel with
  | none => simpa using h.length_le
  | some e =>
    obtain ⟨-, -, -, h10, -⟩ := findEndAux_some hfe
    simp only [Option.getD_some]
    have hm7 : marker.length = 7 := by decide
    omega

theorem finishSlice_ne_nil {rel : List Nat} (h : marker <+: rel) : finishSlice rel ≠ [] := by
  obtain ⟨w, rfl⟩ := h
  rw [finishSlice, List.take_append_eq_append_take,
    List.take_of_length_le (findEnd_ge_of_marker_pre ⟨w, rfl⟩),
    utf8_ascii_append _ _ (by decide)]
  have hm : marker = 115 :: strCodes "potify" := by decide
  rw [hm, List.cons_append]
  exact strip_cons_ne_nil (by decide) (by decide)

theorem sorted_nodup_adjacent {l : List Nat} (hs : l.Sorted (· ≤ ·)) (hnd : l.Nodup)
    {N : Nat} (h1 : N ∈ l) (h2 : N + 1 ∈ l) :
    ∃ l1 l2, l = l1 ++ N :: (N + 1) :: l2 := by
  induction l with
  | nil => cases h1
  | cons a t ih =>
    by_cases ha : N = a
    · subst ha
      have h2t : N + 1 ∈ t := by
        rcases List.mem_cons.mp h2 with he | ht
        · omega
        · exact ht
      cases t with
      | nil => cases h2t
      | cons b t' =>
        have hbN : N < b := by
          have hble : N ≤ b := List.rel_of_sorted_cons hs b (List.mem_cons_self b t')
          have hbne : b ≠ N := by
            intro hEq
            subst hEq
            exact (List.nodup_cons.mp hnd).1 (List.mem_cons_self _ _)
          omega
        have hb1 : b = N + 1 := by
          rcases List.mem_cons.mp h2t with he | ht
          · omega
          · have hble2 : b ≤ N + 1 := List.rel_of_sorted_cons hs.of_cons (N + 1) ht
            omega
        subst hb1
        exact ⟨[], t', rfl⟩
    · have hNt : N ∈ t := by
        rcases List.mem_cons.mp h1 with he | ht
        · exact absurd he ha
        · exact ht
      have haN : a ≤ N := List.rel_of_sorted_cons hs N hNt
      have h1t : N + 1 ∈ t := by
        rcases List.mem_cons.mp h2 with he | ht
        · omega
        · exact ht
      obtain ⟨l1, l2, hl⟩ := ih hs.of_cons (List.Nodup.of_cons hnd) hNt h1t
      exact ⟨a :: l1, l2, by rw [hl]; rfl⟩

/-- C3: when the marker is split exactly at the boundary between blocks N and
N+1 (so no single block contains it), `reconstruct` still returns
`found = true`, and its result equals that of any block set that carries the
marker wholly inside one block and yields the same buffer suffix from the
first marker occurrence (the "corresponding unsplit" set). -/
theorem claim_C3_thm (d dU : RawBlockSet) (N : Nat) (u m1 m2 v : PyStr)
    (hkeys : (keysOf d).Nodup)
    (hm : marker = m1 ++ m2) (_hm1 : m1 ≠ []) (_hm2 : m2 ≠ [])
    (hN : lookupB d N = some (u ++ m1)) (hN1 : lookupB d (N + 1) = some (m2 ++ v))
    (hvalid : ∀ p ∈ d, p.2.all (· < 256) = true)
    (hnoblk : ∀ p ∈ d, blockHasMarker p.2 = false)
    (_hone : ∃ p ∈ dU, blockHasMarker p.2 = true)
    (hsuffix : markerSuffix dU = markerSuffix d) :
    (reconstruct d).2 = true ∧ reconstruct dU = reconstruct d := by
  have hstart : startBlockOf d = none := by
    rw [startBlockOf, List.find?_eq_none]
    intro idx hidx hpred
    rw [blockAtHasMarker] at hpred
    cases hl : lookupB d idx with
    | none => simp [hl] at hpred
    | some s =>
      simp only [hl] at hpred
      have hf := hnoblk (idx, s) (lookupB_some_mem hl)
      rw [hpred] at hf
      cases hf
  have hall : allBytesOf d = collectAllB d := by rw [allBytesOf, hstart]
  have hmemN : N ∈ keysOf d := List.mem_map_of_mem Prod.fst (lookupB_some_mem hN)
  have hmemN1 : N + 1 ∈ keysOf d := List.mem_map_of_mem Prod.fst (lookupB_some_mem hN1)
  obtain ⟨l1, l2, hadj⟩ := sorted_nodup_adjacent (sortKeys_sorted (keysOf d))
    ((sortKeys_perm _).symm.nodup hkeys)
    ((sortKeys_perm _).mem_iff.mpr hmemN) ((sortKeys_perm _).mem_iff.mpr hmemN1)
  have hbN : blockBytes d N = u ++ m1 :=
    blockBytes_eq hN (hvalid _ (lookupB_some_mem hN))
  have hbN1 : blockBytes d (N + 1) = m2 ++ v :=
    blockBytes_eq hN1 (hvalid _ (lookupB_some_mem hN1))
  have hbuf : collectAllB d =
      ((l1.map (blockBytes d)).flatten ++ u) ++ marker ++
        (v ++ (l2.map (blockBytes d)).flatten) := by
    rw [collectAllB, hadj, List.map_append, List.flatten_append, List.map_cons,
      List.map_cons, List.flatten_cons, List.flatten_cons, hbN, hbN1, hm]
    simp [List.append_assoc]
  have hinf : marker <:+: allBytesOf d := by
    rw [hall]
    exact ⟨(l1.map (blockBytes d)).flatten ++ u,
      v ++ (l2.map (blockBytes d)).flatten, hbuf.symm⟩
  obtain ⟨i, hi⟩ : ∃ i, findSub marker (allBytesOf d) = some i :=
    Option.isSome_iff_exists.mp (findSub_isSome_iff.mpr hinf)
  have hpre : marker <+: (allBytesOf d).drop i := findSub_some_pre hi
  have hparse : parse_nfc_data d = some (finishSlice ((allBytesOf d).drop i)) :=
    parse_eq_of_findSub hi
  have hne : finishSlice ((allBytesOf d).drop i) ≠ [] := finishSlice_ne_nil hpre
  constructor
  · rw [reconstruct, hparse]
    simp [List.isEmpty_iff, hne]
  · have hmsd : markerSuffix d = some ((allBytesOf d).drop i) := by
      rw [markerSuffix, hi]
      rfl
    have hmsU : markerSuffix dU = some ((allBytesOf d).drop i) := by rw [hsuffix, hmsd]
    obtain ⟨j, hj, hdrop⟩ := Option.map_eq_some'.mp hmsU
    have hparseU : parse_nfc_data dU = some (finishSlice ((allBytesOf dU).drop j)) :=
      parse_eq_of_findSub hj
    rw [reconstruct, reconstruct, hparse, hparseU, hdrop]

/-- Witness for `claim_C3_thm`: the marker `"spotify"` split as
`"spot" ++ "ify"` across blocks 4 and 5, against the unsplit set
`{0: "xxspotify:album:AB"}` with the same suffix from the marker. -/
theorem claim_C3_witness :
    (reconstruct [(4, strCodes "xxspot"), (5, strCodes "ify:album:AB")]).2 = true ∧
    reconstruct [(0, strCodes "xxspotify:album:AB")] =
      reconstruct [(4, strCodes "xxspot"), (5, strCodes "ify:album:AB")] :=
  claim_C3_thm _ _ 4 (strCodes "xx") (strCodes "spot") (strCodes "ify") (strCodes ":album:AB")
    (by decide) (by decide) (by decide) (by decide) (by decide) (by decide)
    (by decide) (by decide) (by decide) (by decide)

example : normalize_album_uri (strCodes "https://open.spotify.com/album/4iV5W9uYEdYUVa79Axb7Rh?si=abc") =
    strCodes "spotify:album:4iV5W9uYEdYUVa79Axb7Rh" := by decide

example : validate_album_uri (strCodes "spotify:album:4iV5W9uYEdYUVa79Axb7Rh") = true := by decide
